import Mathlib

/-!
Verification of the Flamehaven-Filesearch validation-and-caching core.

The repository ships only the test suite for its core modules
(`flamehaven_filesearch.exceptions`, `.validators`, `.cache`, `.config`);
the module bodies themselves are not present in the source tree.  Every
definition below is therefore modelled from the specification document
(sections 3, 4 and 8), kept faithful to its words and constrained by the
concrete expectations pinned down in the repository's test files.
Strings are embedded as `List Char`; Python exceptions become `Except`
results; the process clock becomes an explicit `now : Nat` argument.
-/

namespace Flamehaven

/-- Modelled from the spec: the closed error taxonomy of §4.1, a fixed
enumeration of failure codes (module `flamehaven_filesearch.exceptions`
is absent from the source tree). -/
inductive ErrorCode where
  | FILE_SIZE_EXCEEDED
  | INVALID_FILENAME
  | UNSUPPORTED_FILE_TYPE
  | FILE_PROCESSING_ERROR
  | EMPTY_SEARCH_QUERY
  | INVALID_SEARCH_QUERY
  | SERVICE_UNAVAILABLE
  | EXTERNAL_API_ERROR
  | RESOURCE_NOT_FOUND
  | RESOURCE_CONFLICT
  | INTERNAL_SERVER_ERROR
  | VALIDATION_ERROR
  deriving DecidableEq, Repr

/-- Modelled from the spec: the fixed default http status attached to each
taxonomy code (§4.1). -/
def ErrorCode.status : ErrorCode → Nat
  | .FILE_SIZE_EXCEEDED => 400
  | .INVALID_FILENAME => 400
  | .UNSUPPORTED_FILE_TYPE => 400
  | .FILE_PROCESSING_ERROR => 400
  | .EMPTY_SEARCH_QUERY => 400
  | .INVALID_SEARCH_QUERY => 400
  | .SERVICE_UNAVAILABLE => 503
  | .EXTERNAL_API_ERROR => 502
  | .RESOURCE_NOT_FOUND => 404
  | .RESOURCE_CONFLICT => 409
  | .INTERNAL_SERVER_ERROR => 500
  | .VALIDATION_ERROR => 422

/-- Modelled from the spec: a `TypedFailure` value (§3 data model): an
immutable record of a taxonomy code, a human message and a context mapping
(context entries are modelled as name/value pairs of strings). -/
structure TypedFailure where
  code : ErrorCode
  message : List Char
  context : List (List Char × List Char)
  deriving DecidableEq, Repr

/-- Modelled from the spec: the serialized response shape
`\x7berror, status_code, message, ...context\x7d` of §4.1 and §6. -/
structure ErrorResponse where
  error : ErrorCode
  status_code : Nat
  message : List Char
  context : List (List Char × List Char)
  deriving DecidableEq, Repr

/-- Modelled from the spec: `to_dict` serialization of a taxonomy member;
the status code is taken from the fixed per-code table, never from the
constructor arguments. -/
def TypedFailure.to_dict (f : TypedFailure) : ErrorResponse :=
  { error := f.code
    status_code := f.code.status
    message := f.message
    context := f.context }

/-- Modelled from the spec: the open-ended space of untyped runtime
failures arriving from lower layers (§4.1's adapter input).  The
recognized Python exception classes appear as their own constructors;
`otherFailure` stands for the unbounded remainder (RuntimeError and every
other unrecognized class, indexed to keep the case genuinely infinite). -/
inductive RuntimeFailure where
  | valueErr (msg : List Char)
  | fileNotFoundErr (msg : List Char)
  | permissionErr (msg : List Char)
  | timeoutErr (msg : List Char)
  | otherFailure (classId : Nat) (msg : List Char)
  deriving DecidableEq, Repr

/-- Modelled from the spec: the adapter's output shape; its `error` field
is a raw code string because the adapter codes (`FILE_NOT_FOUND`,
`PERMISSION_DENIED`, `TIMEOUT`, `INTERNAL_ERROR`) are not taxonomy
members. -/
structure AdapterResponse where
  error : List Char
  status_code : Nat
  message : List Char
  deriving DecidableEq, Repr

/-- Modelled from the spec: `exception_to_response`, the single fixed
lookup translating untyped runtime failures to the stable response shape
(§4.1): resource absent → FILE_NOT_FOUND 404, permission denied →
PERMISSION_DENIED 403, deadline exceeded → TIMEOUT 504, malformed input →
VALIDATION_ERROR 422, anything else → INTERNAL_ERROR 500. -/
def exception_to_response : RuntimeFailure → AdapterResponse
  | .fileNotFoundErr m => ⟨"FILE_NOT_FOUND".toList, 404, m⟩
  | .permissionErr m => ⟨"PERMISSION_DENIED".toList, 403, m⟩
  | .timeoutErr m => ⟨"TIMEOUT".toList, 504, m⟩
  | .valueErr m => ⟨"VALIDATION_ERROR".toList, 422, m⟩
  | .otherFailure _ m => ⟨"INTERNAL_ERROR".toList, 500, m⟩

/-- Whitespace predicate used by all the validators (models Python's
`str.strip` / `\s` character class for the usual ASCII whitespace). -/
def isWs (c : Char) : Bool :=
  c = ' ' ∨ c = '\t' ∨ c = '\n' ∨ c = '\r'

/-- Left-then-right whitespace trimming (models Python `str.strip`). -/
def trimWs (l : List Char) : List Char :=
  ((l.dropWhile isWs).reverse.dropWhile isWs).reverse

/-- Modelled from the spec: the relevant fragment of `Config`
(module `flamehaven_filesearch.config` is absent from the source tree);
only the `api_key` field matters to the validation behaviour pinned by
`tests/test_edge_cases.py`. -/
structure Config where
  api_key : List Char
  deriving DecidableEq, Repr

/-- Marker for a plain Python `ValueError`, deliberately a different type
from the `ErrorCode` taxonomy: `Config.validate` raises the builtin, not
a typed failure. -/
inductive PlainValueError where
  | valueError
  deriving DecidableEq, Repr

/-- Modelled from the spec: `Config.validate(require_api_key=...)` as
pinned by `tests/test_edge_cases.py`: with the flag set it raises a plain
`ValueError` when the configured key is empty or whitespace-only, and
returns `True` otherwise; without the flag it always succeeds. -/
def Config.validate (c : Config) (require_api_key : Bool) :
    Except PlainValueError Bool :=
  if require_api_key ∧ trimWs c.api_key = [] then
    .error .valueError
  else
    .ok true

/-- C6: every taxonomy member serializes to an object carrying its code,
its http status, its message and its context, and the status_code field
is exactly the fixed pure-per-code table (FILE_SIZE_EXCEEDED 400,
INVALID_FILENAME 400, UNSUPPORTED_FILE_TYPE 400, FILE_PROCESSING_ERROR
400, EMPTY_SEARCH_QUERY 400, INVALID_SEARCH_QUERY 400,
SERVICE_UNAVAILABLE 503, EXTERNAL_API_ERROR 502, RESOURCE_NOT_FOUND 404,
RESOURCE_CONFLICT 409, INTERNAL_SERVER_ERROR 500, VALIDATION_ERROR 422),
independent of the message and context the constructor received. -/
theorem taxonomy_serialization_status_pure :
    (∀ f : TypedFailure,
      f.to_dict.error = f.code ∧
      f.to_dict.status_code = f.code.status ∧
      f.to_dict.message = f.message ∧
      f.to_dict.context = f.context) ∧
    ErrorCode.FILE_SIZE_EXCEEDED.status = 400 ∧
    ErrorCode.INVALID_FILENAME.status = 400 ∧
    ErrorCode.UNSUPPORTED_FILE_TYPE.status = 400 ∧
    ErrorCode.FILE_PROCESSING_ERROR.status = 400 ∧
    ErrorCode.EMPTY_SEARCH_QUERY.status = 400 ∧
    ErrorCode.INVALID_SEARCH_QUERY.status = 400 ∧
    ErrorCode.SERVICE_UNAVAILABLE.status = 503 ∧
    ErrorCode.EXTERNAL_API_ERROR.status = 502 ∧
    ErrorCode.RESOURCE_NOT_FOUND.status = 404 ∧
    ErrorCode.RESOURCE_CONFLICT.status = 409 ∧
    ErrorCode.INTERNAL_SERVER_ERROR.status = 500 ∧
    ErrorCode.VALIDATION_ERROR.status = 422 := by
  refine ⟨fun f => ⟨rfl, rfl, rfl, rfl⟩, ?_⟩
  repeat constructor

/-- C5: the adapter maps every untyped runtime failure with the fixed
lookup — resource-absent → FILE_NOT_FOUND 404, permission-denied →
PERMISSION_DENIED 403, deadline-exceeded → TIMEOUT 504, malformed-input →
VALIDATION_ERROR 422, everything else → INTERNAL_ERROR 500 — and no input
produces an unmapped or raw failure: the output code of every input is
one of those five codes with its fixed status. -/
theorem exception_to_response_fixed_lookup :
    (∀ m, (exception_to_response (.fileNotFoundErr m)).error =
        "FILE_NOT_FOUND".toList ∧
      (exception_to_response (.fileNotFoundErr m)).status_code = 404) ∧
    (∀ m, (exception_to_response (.permissionErr m)).error =
        "PERMISSION_DENIED".toList ∧
      (exception_to_response (.permissionErr m)).status_code = 403) ∧
    (∀ m, (exception_to_response (.timeoutErr m)).error =
        "TIMEOUT".toList ∧
      (exception_to_response (.timeoutErr m)).status_code = 504) ∧
    (∀ m, (exception_to_response (.valueErr m)).error =
        "VALIDATION_ERROR".toList ∧
      (exception_to_response (.valueErr m)).status_code = 422) ∧
    (∀ i m, (exception_to_response (.otherFailure i m)).error =
        "INTERNAL_ERROR".toList ∧
      (exception_to_response (.otherFailure i m)).status_code = 500) ∧
    (∀ e : RuntimeFailure,
      ((exception_to_response e).error, (exception_to_response e).status_code)
        ∈ [("FILE_NOT_FOUND".toList, 404), ("PERMISSION_DENIED".toList, 403),
           ("TIMEOUT".toList, 504), ("VALIDATION_ERROR".toList, 422),
           ("INTERNAL_ERROR".toList, 500)]) := by
  refine ⟨fun m => ⟨rfl, rfl⟩, fun m => ⟨rfl, rfl⟩, fun m => ⟨rfl, rfl⟩,
    fun m => ⟨rfl, rfl⟩, fun i m => ⟨rfl, rfl⟩, fun e => ?_⟩
  cases e <;> simp [exception_to_response]

/-- C10: `Config.validate` with `require_api_key` set raises a plain
`ValueError` — a type disjoint from the taxonomy — exactly when the
configured api_key is empty or whitespace-only, and returns success for
every non-blank api_key regardless of its length. -/
theorem config_validate_requires_nonblank_key :
    ∀ c : Config,
      (c.validate true = .error .valueError ↔ trimWs c.api_key = []) ∧
      (c.validate true = .ok true ↔ trimWs c.api_key ≠ []) := by
  intro c
  by_cases hb : trimWs c.api_key = []
  · have hv : c.validate true = .error .valueError := by
      simp [Config.validate, hb]
    rw [hv]
    refine ⟨⟨fun _ => hb, fun _ => rfl⟩, ?_, ?_⟩
    · intro h; simp at h
    · intro h; exact absurd hb h
  · have hv : c.validate true = .ok true := by
      simp [Config.validate, hb]
    rw [hv]
    refine ⟨⟨?_, ?_⟩, fun _ => hb, fun _ => rfl⟩
    · intro h; simp at h
    · intro h; exact absurd h hb

/-- Modelled from the spec: a `CacheEntry` (§3 data model): value,
insertion timestamp and optional expiry timestamp (`none` for caches with
no time-to-live). -/
structure CacheEntry (α : Type) where
  value : α
  inserted_at : Nat
  expires_at : Option Nat
  deriving DecidableEq, Repr

/-- Association-list lookup on the cache's internal container. -/
def lookupKey {κ α : Type} [DecidableEq κ] :
    List (κ × CacheEntry α) → κ → Option (CacheEntry α)
  | [], _ => none
  | (k', e) :: t, k => if k' = k then some e else lookupKey t k

/-- Remove every binding of a key from the internal container. -/
def removeKey {κ α : Type} [DecidableEq κ] (k : κ) :
    List (κ × CacheEntry α) → List (κ × CacheEntry α)
  | [] => []
  | (k', e) :: t => if k' = k then removeKey k t else (k', e) :: removeKey k t

/-- Modelled from the spec: the cache's underlying storage primitive
(§4.8 fault containment, §9 design note): either a healthy container
holding the entries, or one whose every operation fails with a low-level
runtime fault (mirroring the failing container the tests inject). -/
inductive StorageBox (κ α : Type) where
  | healthy (entries : List (κ × CacheEntry α))
  | failing (msg : List Char)
  deriving DecidableEq, Repr

/-- Raw (uncontained) storage read: the fault, when the primitive fails,
is visible in the `Except` result. -/
def StorageBox.rawGet {κ α : Type} [DecidableEq κ] :
    StorageBox κ α → κ → Except (List Char) (Option (CacheEntry α))
  | .healthy es, k => .ok (lookupKey es k)
  | .failing m, _ => .error m

/-- Raw (uncontained) storage write. -/
def StorageBox.rawSet {κ α : Type} [DecidableEq κ] :
    StorageBox κ α → κ → CacheEntry α → Except (List Char) (StorageBox κ α)
  | .healthy es, k, e => .ok (.healthy ((k, e) :: removeKey k es))
  | .failing m, _, _ => .error m

/-- Modelled from the spec: the cache layer's `get` around the storage
primitive — any storage fault degrades to reporting absence (§4.8). -/
def guardedGet {κ α : Type} [DecidableEq κ] (s : StorageBox κ α) (k : κ) :
    Option α :=
  match s.rawGet k with
  | .error _ => none
  | .ok none => none
  | .ok (some e) => some e.value

/-- Modelled from the spec: the cache layer's `set` around the storage
primitive — any storage fault is swallowed and the operation returns
normally with the storage unchanged (§4.8). -/
def guardedSet {κ α : Type} [DecidableEq κ] (s : StorageBox κ α) (k : κ)
    (e : CacheEntry α) : StorageBox κ α :=
  match s.rawSet k e with
  | .error _ => s
  | .ok s' => s'

/-- C4: storage-level faults never escape a cache operation: whenever the
underlying storage primitive faults on a read, the cache's `get` returns
absence instead of propagating the fault, and whenever it faults on a
write, the cache's `set` returns normally leaving storage unchanged; in
particular on an always-failing container every `get` is `none` and every
`set` is the identity. -/
theorem cache_fault_containment (κ α : Type) [DecidableEq κ] :
    (∀ (s : StorageBox κ α) (k : κ) (m : List Char),
      s.rawGet k = .error m → guardedGet s k = none) ∧
    (∀ (s : StorageBox κ α) (k : κ) (e : CacheEntry α) (m : List Char),
      s.rawSet k e = .error m → guardedSet s k e = s) ∧
    (∀ (m : List Char) (k : κ),
      guardedGet (StorageBox.failing m : StorageBox κ α) k = none) ∧
    (∀ (m : List Char) (k : κ) (e : CacheEntry α),
      guardedSet (StorageBox.failing m : StorageBox κ α) k e =
        StorageBox.failing m) := by
  refine ⟨?_, ?_, fun m k => rfl, fun m k e => rfl⟩
  · intro s k m h
    unfold guardedGet
    rw [h]
  · intro s k e m h
    unfold guardedSet
    rw [h]

/-- Concrete instance of the fault-containment theorem on an
always-failing container holding `Nat` keys and values. -/
theorem cache_fault_containment_witness :
    (StorageBox.failing "boom".toList : StorageBox Nat Nat).rawGet 0 =
        .error "boom".toList ∧
    guardedGet (StorageBox.failing "boom".toList : StorageBox Nat Nat) 0 =
        none := by
  refine ⟨rfl, ?_⟩
  exact (cache_fault_containment Nat Nat).1
    (StorageBox.failing "boom".toList) 0 "boom".toList rfl

instance {ε α : Type} [DecidableEq ε] [DecidableEq α] :
    DecidableEq (Except ε α) := fun a b =>
  match a, b with
  | .error e, .error f => decidable_of_iff (e = f) (by simp)
  | .error _, .ok _ => isFalse (by simp)
  | .ok _, .error _ => isFalse (by simp)
  | .ok v, .ok w => decidable_of_iff (v = w) (by simp)

/-- The two-character path-traversal sequence rejected by the filename
validator. -/
def dotdot : List Char := ['.', '.']

/-- Does `l` start with the sequence `p`? -/
def startsWithSeq : List Char → List Char → Bool
  | [], _ => true
  | _ :: _, [] => false
  | a :: p, b :: l => if a = b then startsWithSeq p l else false

/-- Does `l` contain the contiguous sequence `p` anywhere? -/
def containsSeq (p : List Char) : List Char → Bool
  | [] => p.isEmpty
  | c :: t => startsWithSeq p (c :: t) || containsSeq p t

/-- Path separator characters. -/
def isSep (c : Char) : Bool := c = '/' ∨ c = '\\'

/-- Characters illegal in a filename on common filesystems (§4.2):
`: ? < > | " \ /` and control characters. -/
def isIllegalChar (c : Char) : Bool :=
  c = ':' ∨ c = '?' ∨ c = '<' ∨ c = '>' ∨ c = '|' ∨ c = '"' ∨
    c = '\\' ∨ c = '/' ∨ c.toNat < 32

/-- Lowercase a character string. -/
def toLowerList (l : List Char) : List Char := l.map Char.toLower

/-- Modelled from the spec: the reserved device names of §4.2
(`CON`, `AUX`, `PRN`, etc., compared case-insensitively). -/
def reservedDeviceNames : List (List Char) :=
  ["con".toList, "prn".toList, "aux".toList, "nul".toList,
   "com1".toList, "com2".toList, "com3".toList, "com4".toList,
   "com5".toList, "com6".toList, "com7".toList, "com8".toList,
   "com9".toList, "lpt1".toList, "lpt2".toList, "lpt3".toList,
   "lpt4".toList, "lpt5".toList, "lpt6".toList, "lpt7".toList,
   "lpt8".toList, "lpt9".toList]

/-- The base component of a path: everything after the last separator. -/
def baseComponent (l : List Char) : List Char :=
  (l.reverse.takeWhile (fun c => !isSep c)).reverse

/-- Is the (trimmed) name rooted at a drive letter (second character a
colon, as in `C:\...`)? -/
def isDriveRooted : List Char → Bool
  | _ :: c :: _ => c = ':'
  | _ => false

/-- Does the (trimmed) name start with an absolute path separator? -/
def isAbsRooted : List Char → Bool
  | c :: _ => isSep c
  | [] => false

/-- Does the name start with a dot (hidden-file convention)? -/
def startsDot : List Char → Bool
  | '.' :: _ => true
  | _ => false

/-- The stem of a base name: everything before the first dot (used for
the reserved-device-name check, so `con.txt` is caught). -/
def stemOf (base : List Char) : List Char := base.takeWhile (fun c => c ≠ '.')

/-- The checks `validate_filename` applies to the whole trimmed input
before extracting the base component: emptiness, `..` traversal,
absolute rooting, drive rooting.  Each raises `INVALID_FILENAME`. -/
def badEarly (t : List Char) : Bool :=
  t.isEmpty || containsSeq dotdot t || isAbsRooted t || isDriveRooted t

/-- The checks `validate_filename` applies to the extracted base
component: emptiness, hidden-file leading dot, illegal characters,
reserved device stem.  Each raises `INVALID_FILENAME`. -/
def badBase (base : List Char) : Bool :=
  base.isEmpty || startsDot base || base.any isIllegalChar ||
    reservedDeviceNames.contains (toLowerList (stemOf base))

/-- Modelled from the spec: `FilenameValidator.validate_filename` (§4.2,
module `flamehaven_filesearch.validators` is absent from the source
tree): trims surrounding whitespace, rejects `..` traversal and
absolute/drive-rooted paths outright with `INVALID_FILENAME`, extracts
the base component, then rejects empty names, hidden-file names, illegal
characters and reserved device names; returns the cleaned base name. -/
def validate_filename (raw : List Char) : Except ErrorCode (List Char) :=
  let t := trimWs raw
  if badEarly t then .error .INVALID_FILENAME
  else
    let base := baseComponent t
    if badBase base then .error .INVALID_FILENAME
    else .ok base

/-- Tag stripping with explicit fuel (one unit per consumed character,
so `l.length` always suffices): removes each complete `<...>` tag, keeps
an unterminated `<` verbatim, modelling a `<[^>]*>` substitution. -/
def stripTagsFuel : Nat → List Char → List Char
  | 0, l => l
  | _ + 1, [] => []
  | fuel + 1, c :: t =>
    if c = '<' then
      match t.dropWhile (fun d => d ≠ '>') with
      | [] => c :: stripTagsFuel fuel t
      | _ :: rest => stripTagsFuel fuel rest
    else c :: stripTagsFuel fuel t

/-- Modelled from the spec: the HTML-like tag stripper inside
`sanitize_query` (§4.5). -/
def stripTags (l : List Char) : List Char := stripTagsFuel l.length l

/-- One-pass whitespace collapsing: every run of whitespace becomes a
single space, and (starting with `prevWs = true`) leading whitespace is
dropped entirely. -/
def collapseRun : List Char → Bool → List Char
  | [], _ => []
  | c :: t, prevWs =>
    if isWs c then
      if prevWs then collapseRun t true
      else ' ' :: collapseRun t true
    else c :: collapseRun t false

/-- Drop the trailing space a collapsed run may end with. -/
def trimTrailSpace (l : List Char) : List Char :=
  (l.reverse.dropWhile (fun c => c = ' ')).reverse

/-- Collapse internal whitespace runs to single spaces and trim both
ends (models `" ".join(q.split())`). -/
def collapseTrimWs (l : List Char) : List Char :=
  trimTrailSpace (collapseRun l true)

/-- Remove double-dash comment-injection markers, scanning left to right
over non-overlapping occurrences (models `q.replace("--", "")`). -/
def removeDoubleDash : List Char → List Char
  | [] => []
  | [c] => [c]
  | a :: b :: t =>
    if a = '-' ∧ b = '-' then removeDoubleDash t
    else a :: removeDoubleDash (b :: t)

/-- Modelled from the spec: `SearchQueryValidator.sanitize_query` (§4.5):
strips HTML-like tags, collapses whitespace runs and trims the ends,
then removes double-dash comment markers; the step order is pinned by
the repository test expecting `"Hello  DROP"` (marker removal after
whitespace collapsing). -/
def sanitize_query (q : List Char) : List Char :=
  removeDoubleDash (collapseTrimWs (stripTags q))

/-- The fixed system ceiling on requested results (§4.7). -/
def clampResults (max_results : Int) : Int :=
  if 100 ≤ max_results then 100 else max_results

/-- Modelled from the spec: the façade `validate_search_request` (§4.7):
validates the query non-strictly (raising `EMPTY_SEARCH_QUERY` on
blank input), sanitizes it, and silently clamps `max_results` to the
fixed ceiling of 100. -/
def validate_search_request (q : List Char) (max_results : Int) :
    Except ErrorCode (List Char × Int) :=
  let t := trimWs q
  if t = [] then .error .EMPTY_SEARCH_QUERY
  else .ok (sanitize_query t, clampResults max_results)

/-- `p` occurs as a contiguous subsequence of `l`. -/
def OccursIn (p l : List Char) : Prop := ∃ s t, l = s ++ p ++ t

theorem startsWithSeq_append (p t : List Char) :
    startsWithSeq p (p ++ t) = true := by
  induction p with
  | nil => rfl
  | cons a p ih => simp [startsWithSeq, ih]

theorem startsWithSeq_exists {p l : List Char}
    (h : startsWithSeq p l = true) : ∃ t, l = p ++ t := by
  induction p generalizing l with
  | nil => exact ⟨l, rfl⟩
  | cons a p ih =>
    cases l with
    | nil => simp [startsWithSeq] at h
    | cons b l2 =>
      unfold startsWithSeq at h
      by_cases hab : a = b
      · rw [if_pos hab] at h
        obtain ⟨t, ht⟩ := ih h
        exact ⟨t, by rw [hab, ht]; rfl⟩
      · rw [if_neg hab] at h
        cases h

theorem containsSeq_of_startsWithSeq {p l : List Char}
    (h : startsWithSeq p l = true) : containsSeq p l = true := by
  cases l with
  | nil =>
    cases p with
    | nil => rfl
    | cons a p2 => simp [startsWithSeq] at h
  | cons c t => simp [containsSeq, h]

theorem containsSeq_of_occurs {p l : List Char} (h : OccursIn p l) :
    containsSeq p l = true := by
  obtain ⟨s, t, rfl⟩ := h
  induction s with
  | nil =>
    simp only [List.nil_append]
    exact containsSeq_of_startsWithSeq (startsWithSeq_append p t)
  | cons a s2 ih =>
    simp only [List.cons_append, containsSeq, Bool.or_eq_true]
    exact Or.inr (by simpa [List.append_assoc] using ih)

theorem occurs_of_containsSeq {p l : List Char}
    (h : containsSeq p l = true) : OccursIn p l := by
  induction l with
  | nil =>
    have hp : p = [] := by
      cases p with
      | nil => rfl
      | cons a p2 => simp [containsSeq] at h
    exact ⟨[], [], by simp [hp]⟩
  | cons c t ih =>
    unfold containsSeq at h
    rcases Bool.or_eq_true _ _ |>.mp h with h1 | h2
    · obtain ⟨u, hu⟩ := startsWithSeq_exists h1
      exact ⟨[], u, by simp [hu]⟩
    · obtain ⟨s, u, hsu⟩ := ih h2
      exact ⟨c :: s, u, by rw [hsu]; rfl⟩

theorem dd_dropWhile (s t : List Char) :
    ∃ s2, (s ++ dotdot ++ t).dropWhile isWs = s2 ++ dotdot ++ t := by
  induction s with
  | nil =>
    refine ⟨[], ?_⟩
    have hdot : isWs '.' = false := by decide
    simp [dotdot, List.dropWhile_cons, hdot]
  | cons a s2 ih =>
    by_cases hw : isWs a = true
    · obtain ⟨s3, h3⟩ := ih
      refine ⟨s3, ?_⟩
      rw [List.cons_append, List.cons_append, List.dropWhile_cons, if_pos hw]
      exact h3
    · refine ⟨a :: s2, ?_⟩
      rw [List.cons_append, List.cons_append, List.dropWhile_cons,
        if_neg (by simp [hw])]

theorem occursIn_trimWs {l : List Char} (h : OccursIn dotdot l) :
    OccursIn dotdot (trimWs l) := by
  obtain ⟨s, t, rfl⟩ := h
  unfold trimWs
  obtain ⟨s1, h1⟩ := dd_dropWhile s t
  rw [h1]
  have hrev : (s1 ++ dotdot ++ t).reverse =
      t.reverse ++ dotdot ++ s1.reverse := by
    simp [dotdot, List.reverse_append, List.append_assoc]
  rw [hrev]
  obtain ⟨s4, h4⟩ := dd_dropWhile t.reverse s1.reverse
  rw [h4]
  exact ⟨s1, s4.reverse, by
    simp [dotdot, List.reverse_append, List.append_assoc]⟩

/-- C7: every raw filename containing a `..` traversal sequence, or whose
trimmed form is rooted at an absolute-path separator or a drive letter,
is rejected by `validate_filename` with `INVALID_FILENAME`; and a raw
input with surrounding whitespace and relative directory segments is
trimmed and reduced to its base component, so
`validate_filename("  reports/summary.txt  ")` returns `"summary.txt"`. -/
theorem validate_filename_rejects_unsafe_and_returns_base :
    (∀ raw : List Char,
      (containsSeq dotdot raw = true ∨ isAbsRooted (trimWs raw) = true ∨
        isDriveRooted (trimWs raw) = true) →
      validate_filename raw = .error .INVALID_FILENAME) ∧
    validate_filename "  reports/summary.txt  ".toList =
      .ok "summary.txt".toList := by
  constructor
  · intro raw h
    have hbad : badEarly (trimWs raw) = true := by
      rcases h with h | h | h
      · have hc := containsSeq_of_occurs
          (occursIn_trimWs (occurs_of_containsSeq h))
        simp [badEarly, hc]
      · simp [badEarly, h]
      · simp [badEarly, h]
    simp [validate_filename, hbad]
  · decide

/-- Concrete instance of the filename-rejection theorem: the traversal
name `../secret.txt` is rejected with `INVALID_FILENAME`. -/
theorem validate_filename_rejects_witness :
    containsSeq dotdot "../secret.txt".toList = true ∧
    validate_filename "../secret.txt".toList = .error .INVALID_FILENAME :=
  ⟨by decide, validate_filename_rejects_unsafe_and_returns_base.1
    "../secret.txt".toList (.inl (by decide))⟩

/-- Adjacent-double-dash detector, the shape of the comment-injection
marker `sanitize_query` removes. -/
def hasDoubleDash : List Char → Bool
  | a :: b :: t => if a = '-' ∧ b = '-' then true else hasDoubleDash (b :: t)
  | _ => false

theorem rdd_eq_pos (a b : Char) (t : List Char) (h : a = '-' ∧ b = '-') :
    removeDoubleDash (a :: b :: t) = removeDoubleDash t := by
  simp only [removeDoubleDash]
  rw [if_pos h]

theorem rdd_eq_neg (a b : Char) (t : List Char) (h : ¬(a = '-' ∧ b = '-')) :
    removeDoubleDash (a :: b :: t) = a :: removeDoubleDash (b :: t) := by
  simp only [removeDoubleDash]
  rw [if_neg h]

theorem hasDD_eq (a b : Char) (t : List Char) :
    hasDoubleDash (a :: b :: t) =
      if a = '-' ∧ b = '-' then true else hasDoubleDash (b :: t) := by
  simp only [hasDoubleDash]

theorem rdd_cons_head {b : Char} (t : List Char) (hb : ¬ b = '-') :
    ∃ r, removeDoubleDash (b :: t) = b :: r := by
  cases t with
  | nil => exact ⟨[], rfl⟩
  | cons c t2 =>
    exact ⟨removeDoubleDash (c :: t2), rdd_eq_neg b c t2 (fun hh => hb hh.1)⟩

theorem hasDoubleDash_removeDoubleDash (l : List Char) :
    hasDoubleDash (removeDoubleDash l) = false := by
  have H : ∀ n (l : List Char), l.length ≤ n →
      hasDoubleDash (removeDoubleDash l) = false := by
    intro n
    induction n with
    | zero =>
      intro l hl
      have : l = [] := List.length_eq_zero.mp (Nat.le_zero.mp hl)
      subst this
      rfl
    | succ n ih =>
      intro l hl
      rcases l with _ | ⟨a, t0⟩
      · rfl
      rcases t0 with _ | ⟨b, t⟩
      · rfl
      by_cases hab : a = '-' ∧ b = '-'
      · rw [rdd_eq_pos a b t hab]
        exact ih t (by simp [List.length_cons] at hl; omega)
      · rw [rdd_eq_neg a b t hab]
        rcases hX : removeDoubleDash (b :: t) with _ | ⟨c, r⟩
        · rfl
        · have hr : hasDoubleDash (c :: r) = false := by
            rw [← hX]
            exact ih (b :: t) (by simp [List.length_cons] at hl ⊢; omega)
          by_cases ha : a = '-'
          · have hb : ¬ b = '-' := fun hb => hab ⟨ha, hb⟩
            obtain ⟨r2, hr2⟩ := rdd_cons_head t hb
            rw [hX] at hr2
            have hc : c = b := by injection hr2
            rw [hasDD_eq, if_neg (fun hh => hb (hc ▸ hh.2))]
            exact hr
          · rw [hasDD_eq, if_neg (fun hh => ha hh.1)]
            exact hr
  exact H l.length l le_rfl

/-- C8: `sanitize_query` is a total best-effort cleaner (it never raises:
it is a plain function into strings): it strips the HTML-like tags,
collapses/trims whitespace and removes the double-dash comment markers —
on the pinned test input it returns exactly `"Hello  DROP"` — and its
output never retains a double-dash marker for any input whatsoever. -/
theorem sanitize_query_cleans :
    sanitize_query "  <b>Hello</b> -- DROP  ".toList =
      "Hello  DROP".toList ∧
    (∀ q : List Char, hasDoubleDash (sanitize_query q) = false) :=
  ⟨by decide, fun _ => hasDoubleDash_removeDoubleDash _⟩

/-- C9: for every non-blank query and every requested `max_results`, the
façade returns the sanitized query with an effective limit of at most
100 — requests above the ceiling are silently capped to 100, never
rejected — and concretely `validate_search_request("explain", 500)`
returns `("explain", 100)`. -/
theorem validate_search_request_caps_results :
    (∀ (q : List Char) (m : Int), trimWs q ≠ [] →
      validate_search_request q m =
        .ok (sanitize_query (trimWs q), clampResults m) ∧
      clampResults m ≤ 100 ∧ (100 ≤ m → clampResults m = 100)) ∧
    validate_search_request "explain".toList 500 =
      .ok ("explain".toList, 100) := by
  constructor
  · intro q m h
    refine ⟨by simp [validate_search_request, h], ?_, ?_⟩
    · unfold clampResults
      split <;> omega
    · intro hm
      simp [clampResults, hm]
  · decide

/-- Concrete instance of the clamping theorem at query `"query"` and
requested limit 500. -/
theorem validate_search_request_caps_results_witness :
    validate_search_request "query".toList 500 =
        .ok (sanitize_query (trimWs "query".toList), clampResults 500) ∧
      clampResults 500 ≤ 100 ∧ ((100:Int) ≤ 500 → clampResults 500 = 100) :=
  validate_search_request_caps_results.1 "query".toList 500 (by decide)

/-- Modelled from the spec: the `CacheStats` snapshot (§3): monotonic
counters plus `current_size` recomputed from the container. -/
structure CacheStats where
  total_requests : Nat
  hits : Nat
  misses : Nat
  current_size : Nat
  deriving DecidableEq, Repr

/-- Modelled from the spec: the shared cache shape of §4.8
(module `flamehaven_filesearch.cache` is absent from the source tree):
a capacity bound with least-recently-used eviction, an optional
time-to-live (`some T` for `SearchResultCache(capacity, ttl)`, `none`
for `FileMetadataCache(capacity)`), the entries kept in recency order
(head = most recently used), and hit/miss accounting.  The process
clock is an explicit `now` argument to each operation. -/
structure LruCache (κ α : Type) where
  maxsize : Nat
  ttl : Option Nat
  entries : List (κ × CacheEntry α)
  total_requests : Nat
  hits : Nat
  misses : Nat
  deriving DecidableEq, Repr

/-- A freshly constructed cache: no entries, zeroed counters. -/
def LruCache.new (κ α : Type) (maxsize : Nat) (ttl : Option Nat) :
    LruCache κ α :=
  ⟨maxsize, ttl, [], 0, 0, 0⟩

/-- Has this entry expired at time `now`?  Entries with no expiry never
expire; an entry is valid through `expires_at` and stale past it. -/
def expiredAt {α : Type} (e : CacheEntry α) (now : Nat) : Bool :=
  match e.expires_at with
  | none => false
  | some x => decide (x < now)

/-- Modelled from the spec: `set` (§4.8): full replacement of any
existing entry, insertion at the most-recent end, expiry stamped
`now + ttl` when the cache has a ttl, and eviction of the
least-recently-used entry when the capacity is exceeded.  `set` touches
no statistics counter. -/
def LruCache.set {κ α : Type} [DecidableEq κ] (c : LruCache κ α) (k : κ)
    (v : α) (now : Nat) : LruCache κ α :=
  let es1 := (k, ⟨v, now, c.ttl.map (fun T => now + T)⟩) ::
    removeKey k c.entries
  let es2 := if c.maxsize < es1.length then es1.dropLast else es1
  { c with entries := es2 }

/-- Modelled from the spec: `get` (§4.8): a lookup past expiry counts as
a miss and evicts the stale entry; a hit refreshes the entry's recency
and increments `hits`; every call increments `total_requests` and
exactly one of `hits`/`misses`. -/
def LruCache.get {κ α : Type} [DecidableEq κ] (c : LruCache κ α) (k : κ)
    (now : Nat) : Option α × LruCache κ α :=
  match lookupKey c.entries k with
  | none =>
    (none, { c with total_requests := c.total_requests + 1,
                    misses := c.misses + 1 })
  | some e =>
    if expiredAt e now then
      (none, { c with entries := removeKey k c.entries,
                      total_requests := c.total_requests + 1,
                      misses := c.misses + 1 })
    else
      (some e.value, { c with entries := (k, e) :: removeKey k c.entries,
                              total_requests := c.total_requests + 1,
                              hits := c.hits + 1 })

/-- Modelled from the spec: `reset_stats` zeroes the three counters and
leaves the stored entries untouched. -/
def LruCache.reset_stats {κ α : Type} (c : LruCache κ α) : LruCache κ α :=
  { c with total_requests := 0, hits := 0, misses := 0 }

/-- Modelled from the spec: the no-argument `invalidate()` form clears
every entry. -/
def LruCache.invalidateAll {κ α : Type} (c : LruCache κ α) : LruCache κ α :=
  { c with entries := [] }

/-- Modelled from the spec: `get_stats` snapshot. -/
def LruCache.get_stats {κ α : Type} (c : LruCache κ α) : CacheStats :=
  ⟨c.total_requests, c.hits, c.misses, c.entries.length⟩

/-- A single client-visible cache operation, for reasoning about
arbitrary finite operation sequences. -/
inductive CacheOp (κ α : Type) where
  | get (k : κ) (now : Nat)
  | set (k : κ) (v : α) (now : Nat)

/-- Apply one operation to the cache state. -/
def applyOp {κ α : Type} [DecidableEq κ] (c : LruCache κ α) :
    CacheOp κ α → LruCache κ α
  | .get k now => (c.get k now).2
  | .set k v now => c.set k v now

/-- Run a finite sequence of operations. -/
def runOps {κ α : Type} [DecidableEq κ] (c : LruCache κ α)
    (ops : List (CacheOp κ α)) : LruCache κ α :=
  ops.foldl applyOp c

/-- Insert a list of keys in order into a fresh cache of capacity `C`
(values assigned by `vals`, all at time 0). -/
def runSets {κ α : Type} [DecidableEq κ] (C : Nat) (ttl : Option Nat)
    (vals : κ → α) (ks : List κ) : LruCache κ α :=
  ks.foldl (fun c k => c.set k (vals k) 0) (LruCache.new κ α C ttl)

theorem set_counters {κ α : Type} [DecidableEq κ] (c : LruCache κ α)
    (k : κ) (v : α) (now : Nat) :
    (c.set k v now).total_requests = c.total_requests ∧
    (c.set k v now).hits = c.hits ∧ (c.set k v now).misses = c.misses ∧
    (c.set k v now).maxsize = c.maxsize ∧ (c.set k v now).ttl = c.ttl :=
  ⟨rfl, rfl, rfl, rfl, rfl⟩

theorem get_miss_absent {κ α : Type} [DecidableEq κ] {c : LruCache κ α}
    {k : κ} (now : Nat) (h : lookupKey c.entries k = none) :
    c.get k now = (none,
      { c with total_requests := c.total_requests + 1,
               misses := c.misses + 1 }) := by
  simp only [LruCache.get, h]

theorem get_miss_expired {κ α : Type} [DecidableEq κ] {c : LruCache κ α}
    {k : κ} {e : CacheEntry α} {now : Nat}
    (h : lookupKey c.entries k = some e) (he : expiredAt e now = true) :
    c.get k now = (none,
      { c with entries := removeKey k c.entries,
               total_requests := c.total_requests + 1,
               misses := c.misses + 1 }) := by
  simp only [LruCache.get, h, if_pos he]

theorem get_hit {κ α : Type} [DecidableEq κ] {c : LruCache κ α}
    {k : κ} {e : CacheEntry α} {now : Nat}
    (h : lookupKey c.entries k = some e) (he : ¬ expiredAt e now = true) :
    c.get k now = (some e.value,
      { c with entries := (k, e) :: removeKey k c.entries,
               total_requests := c.total_requests + 1,
               hits := c.hits + 1 }) := by
  simp only [LruCache.get, h, if_neg he]

theorem get_cases {κ α : Type} [DecidableEq κ] (c : LruCache κ α) (k : κ)
    (now : Nat) :
    (c.get k now).2.total_requests = c.total_requests + 1 ∧
    (((c.get k now).2.hits = c.hits + 1 ∧
        (c.get k now).2.misses = c.misses) ∨
      ((c.get k now).2.hits = c.hits ∧
        (c.get k now).2.misses = c.misses + 1)) ∧
    (c.get k now).2.maxsize = c.maxsize := by
  rcases h : lookupKey c.entries k with _ | e
  · rw [get_miss_absent now h]
    exact ⟨rfl, Or.inr ⟨rfl, rfl⟩, rfl⟩
  · by_cases he : expiredAt e now = true
    · rw [get_miss_expired h he]
      exact ⟨rfl, Or.inr ⟨rfl, rfl⟩, rfl⟩
    · rw [get_hit h he]
      exact ⟨rfl, Or.inl ⟨rfl, rfl⟩, rfl⟩

/-- C1: stats accounting.  Every `get` increments `total_requests` and
exactly one of `hits`/`misses`; `set` increments none of the three;
`reset_stats` zeroes all three while leaving the stored entries
unchanged; and consequently, starting from a fresh cache,
`hits + misses = total_requests` holds after every finite sequence of
`get`/`set` operations (hence after each operation, since every prefix
is such a sequence). -/
theorem cache_stats_accounting (κ α : Type) [DecidableEq κ] :
    (∀ (c : LruCache κ α) (k : κ) (now : Nat),
      (c.get k now).2.total_requests = c.total_requests + 1 ∧
      (((c.get k now).2.hits = c.hits + 1 ∧
          (c.get k now).2.misses = c.misses) ∨
        ((c.get k now).2.hits = c.hits ∧
          (c.get k now).2.misses = c.misses + 1))) ∧
    (∀ (c : LruCache κ α) (k : κ) (v : α) (now : Nat),
      (c.set k v now).total_requests = c.total_requests ∧
      (c.set k v now).hits = c.hits ∧
      (c.set k v now).misses = c.misses) ∧
    (∀ c : LruCache κ α,
      c.reset_stats.total_requests = 0 ∧ c.reset_stats.hits = 0 ∧
      c.reset_stats.misses = 0 ∧ c.reset_stats.entries = c.entries) ∧
    (∀ (maxsize : Nat) (ttl : Option Nat) (ops : List (CacheOp κ α)),
      (runOps (LruCache.new κ α maxsize ttl) ops).hits +
        (runOps (LruCache.new κ α maxsize ttl) ops).misses =
        (runOps (LruCache.new κ α maxsize ttl) ops).total_requests) := by
  have pres : ∀ (c : LruCache κ α) (op : CacheOp κ α),
      c.hits + c.misses = c.total_requests →
      (applyOp c op).hits + (applyOp c op).misses =
        (applyOp c op).total_requests := by
    intro c op h
    cases op with
    | get k now =>
      obtain ⟨ht, hc, -⟩ := get_cases c k now
      rcases hc with ⟨h1, h2⟩ | ⟨h1, h2⟩ <;>
        simp only [applyOp, h1, h2, ht] <;> omega
    | set k v now =>
      obtain ⟨h1, h2, h3, -, -⟩ := set_counters c k v now
      simpa only [applyOp, h1, h2, h3] using h
  have runs : ∀ (ops : List (CacheOp κ α)) (c : LruCache κ α),
      c.hits + c.misses = c.total_requests →
      (runOps c ops).hits + (runOps c ops).misses =
        (runOps c ops).total_requests := by
    intro ops
    induction ops with
    | nil => intro c h; exact h
    | cons op ops ih =>
      intro c h
      exact ih (applyOp c op) (pres c op h)
  refine ⟨fun c k now => ⟨(get_cases c k now).1, (get_cases c k now).2.1⟩,
    fun c k v now => ⟨rfl, rfl, rfl⟩,
    fun c => ⟨rfl, rfl, rfl, rfl⟩,
    fun maxsize ttl ops => runs ops _ rfl⟩

/-- Concrete instance of the stats-accounting theorem: after a miss, an
insert and a hit on a fresh cache, `hits + misses = total_requests`. -/
theorem cache_stats_accounting_witness :
    (runOps (LruCache.new Nat Nat 2 (some 5))
        [CacheOp.get 0 0, CacheOp.set 0 42 0, CacheOp.get 0 0]).hits +
      (runOps (LruCache.new Nat Nat 2 (some 5))
        [CacheOp.get 0 0, CacheOp.set 0 42 0, CacheOp.get 0 0]).misses =
      (runOps (LruCache.new Nat Nat 2 (some 5))
        [CacheOp.get 0 0, CacheOp.set 0 42 0, CacheOp.get 0 0]).total_requests :=
  (cache_stats_accounting Nat Nat).2.2.2 2 (some 5)
    [CacheOp.get 0 0, CacheOp.set 0 42 0, CacheOp.get 0 0]

theorem removeKey_length_le {κ α : Type} [DecidableEq κ] (k : κ) :
    ∀ es : List (κ × CacheEntry α), (removeKey k es).length ≤ es.length := by
  intro es
  induction es with
  | nil => simp [removeKey]
  | cons p t ih =>
    obtain ⟨k', e⟩ := p
    simp only [removeKey]
    by_cases hk : k' = k
    · rw [if_pos hk]
      exact Nat.le_succ_of_le ih
    · rw [if_neg hk]
      simpa using ih

theorem lookupKey_some_length_lt {κ α : Type} [DecidableEq κ] {k : κ}
    {e : CacheEntry α} :
    ∀ {es : List (κ × CacheEntry α)}, lookupKey es k = some e →
      (removeKey k es).length < es.length := by
  intro es
  induction es with
  | nil => intro h; simp [lookupKey] at h
  | cons p t ih =>
    obtain ⟨k', e'⟩ := p
    intro h
    simp only [lookupKey] at h
    simp only [removeKey]
    by_cases hk : k' = k
    · rw [if_pos hk]
      exact Nat.lt_succ_of_le (removeKey_length_le k t)
    · rw [if_neg hk]
      rw [if_neg hk] at h
      simpa using ih h

theorem removeKey_eq_of_not_mem {κ α : Type} [DecidableEq κ] {k : κ} :
    ∀ {es : List (κ × CacheEntry α)}, k ∉ es.map Prod.fst →
      removeKey k es = es := by
  intro es
  induction es with
  | nil => intro _; rfl
  | cons p t ih =>
    obtain ⟨k', e⟩ := p
    intro h
    simp only [List.map_cons, List.mem_cons] at h
    push_neg at h
    simp only [removeKey]
    rw [if_neg (fun he => h.1 he.symm), ih h.2]

theorem lookupKey_removeKey {κ α : Type} [DecidableEq κ] (k : κ) :
    ∀ es : List (κ × CacheEntry α), lookupKey (removeKey k es) k = none := by
  intro es
  induction es with
  | nil => rfl
  | cons p t ih =>
    obtain ⟨k', e⟩ := p
    simp only [removeKey]
    by_cases hk : k' = k
    · rw [if_pos hk]
      exact ih
    · rw [if_neg hk]
      simp only [lookupKey]
      rw [if_neg hk]
      exact ih

theorem set_size_le {κ α : Type} [DecidableEq κ] (c : LruCache κ α)
    (k : κ) (v : α) (now : Nat) (h : c.entries.length ≤ c.maxsize) :
    (c.set k v now).entries.length ≤ c.maxsize := by
  have hr := removeKey_length_le k c.entries
  simp only [LruCache.set]
  split
  next hlt =>
    simp only [List.length_dropLast, List.length_cons]
    omega
  next hge =>
    simp only [List.length_cons] at hge ⊢
    omega

theorem applyOp_maxsize {κ α : Type} [DecidableEq κ] (c : LruCache κ α)
    (op : CacheOp κ α) : (applyOp c op).maxsize = c.maxsize := by
  cases op with
  | get k now => exact (get_cases c k now).2.2
  | set k v now => rfl

theorem applyOp_size_le {κ α : Type} [DecidableEq κ] (c : LruCache κ α)
    (op : CacheOp κ α) (h : c.entries.length ≤ c.maxsize) :
    (applyOp c op).entries.length ≤ c.maxsize := by
  cases op with
  | set k v now => exact set_size_le c k v now h
  | get k now =>
    simp only [applyOp]
    rcases hl : lookupKey c.entries k with _ | e
    · rw [get_miss_absent now hl]
      exact h
    · by_cases he : expiredAt e now = true
      · rw [get_miss_expired hl he]
        exact le_trans (removeKey_length_le k c.entries) h
      · rw [get_hit hl he]
        have := lookupKey_some_length_lt hl
        simp only [List.length_cons]
        omega

theorem runOps_size_le {κ α : Type} [DecidableEq κ]
    (ops : List (CacheOp κ α)) :
    ∀ c : LruCache κ α, c.entries.length ≤ c.maxsize →
      (runOps c ops).entries.length ≤ (runOps c ops).maxsize ∧
      (runOps c ops).maxsize = c.maxsize := by
  induction ops with
  | nil => intro c h; exact ⟨h, rfl⟩
  | cons op ops ih =>
    intro c h
    have hstep : (applyOp c op).entries.length ≤ (applyOp c op).maxsize := by
      rw [applyOp_maxsize]
      exact applyOp_size_le c op h
    obtain ⟨h1, h2⟩ := ih (applyOp c op) hstep
    exact ⟨h1, h2.trans (applyOp_maxsize c op)⟩

theorem take_cons_take {β : Type} (C : Nat) (k : β) (R : List β) :
    (k :: R.take C).take C = (k :: R).take C := by
  cases C with
  | zero => rfl
  | succ n =>
    simp [List.take_succ_cons, List.take_take, Nat.min_eq_left (Nat.le_succ n)]

theorem runSets_keys {κ α : Type} [DecidableEq κ] (C : Nat)
    (ttl : Option Nat) (vals : κ → α) :
    ∀ ks : List κ, ks.Nodup →
      (runSets C ttl vals ks).maxsize = C ∧
      (runSets C ttl vals ks).entries.map Prod.fst = ks.reverse.take C := by
  intro ks
  induction ks using List.reverseRecOn with
  | nil => intro _; exact ⟨rfl, by simp [runSets, LruCache.new]⟩
  | append_singleton ks k ih =>
    intro hnd
    rw [List.nodup_append] at hnd
    have hnotks : k ∉ ks := fun hk => hnd.2.2 hk (by simp)
    obtain ⟨hmax, hkeys⟩ := ih hnd.1
    have hrun : runSets C ttl vals (ks ++ [k]) =
        (runSets C ttl vals ks).set k (vals k) 0 := by
      simp [runSets, List.foldl_append]
    rw [hrun]
    have hnotin : k ∉ (runSets C ttl vals ks).entries.map Prod.fst := by
      rw [hkeys]
      intro hmem
      exact hnotks (List.mem_reverse.mp (List.take_subset C ks.reverse hmem))
    have hrem : removeKey k (runSets C ttl vals ks).entries =
        (runSets C ttl vals ks).entries := removeKey_eq_of_not_mem hnotin
    have hlen : (runSets C ttl vals ks).entries.length =
        min C ks.reverse.length := by
      have := congrArg List.length hkeys
      simpa [List.length_take] using this
    refine ⟨hmax, ?_⟩
    simp only [LruCache.set, hrem, hmax]
    have hrev : (ks ++ [k]).reverse = k :: ks.reverse := by simp
    split
    next hlt =>
      -- eviction branch: the container was exactly full
      simp only [List.length_cons, hlen] at hlt
      have hminle : min C ks.reverse.length ≤ C := Nat.min_le_left _ _
      have hmineq : min C ks.reverse.length = C := by omega
      have hdl : ((k, (⟨vals k, 0,
          Option.map (fun T => 0 + T) (runSets C ttl vals ks).ttl⟩ :
            CacheEntry α)) :: (runSets C ttl vals ks).entries).dropLast =
          ((k, (⟨vals k, 0,
          Option.map (fun T => 0 + T) (runSets C ttl vals ks).ttl⟩ :
            CacheEntry α)) :: (runSets C ttl vals ks).entries).take C := by
        rw [List.dropLast_eq_take]
        simp only [List.length_cons, hlen, hmineq, Nat.add_sub_cancel]
      rw [hdl, List.map_take, List.map_cons, hkeys, take_cons_take, hrev]
    next hge =>
      -- no eviction: the container still had room
      push_neg at hge
      simp only [List.length_cons, hlen] at hge
      have hL : ks.reverse.length < C := by
        by_contra hno
        push_neg at hno
        rw [Nat.min_eq_left hno] at hge
        omega
      have hL2 : ks.length < C := by simpa using hL
      have htake : ks.reverse.take C = ks.reverse :=
        List.take_of_length_le (le_of_lt hL)
      have htake2 : (k :: ks.reverse).take C = k :: ks.reverse :=
        List.take_of_length_le
          (by simp only [List.length_cons, List.length_reverse]; omega)
      rw [List.map_cons, hkeys, hrev, htake, htake2]

/-- C2: the capacity invariant and LRU eviction.  Starting from a fresh
bounded cache of capacity `maxsize`, the number of stored entries never
exceeds `maxsize` after any sequence of operations; and inserting
`C + 1` distinct keys into a fresh cache of capacity `C` leaves exactly
`C` entries — those inserted last, in most-recent-first order — with the
first-inserted (least-recently-used) key the one evicted. -/
theorem cache_capacity_and_lru_eviction (κ α : Type) [DecidableEq κ] :
    (∀ (maxsize : Nat) (ttl : Option Nat) (ops : List (CacheOp κ α)),
      (runOps (LruCache.new κ α maxsize ttl) ops).entries.length ≤
        maxsize) ∧
    (∀ (C : Nat) (ttl : Option Nat) (vals : κ → α) (ks : List κ),
      ks.Nodup → ks.length = C + 1 →
      (runSets C ttl vals ks).entries.map Prod.fst = (ks.drop 1).reverse ∧
      (runSets C ttl vals ks).entries.length = C ∧
      ∀ k0, ks.head? = some k0 →
        k0 ∉ (runSets C ttl vals ks).entries.map Prod.fst) := by
  constructor
  · intro maxsize ttl ops
    obtain ⟨h1, h2⟩ := runOps_size_le ops (LruCache.new κ α maxsize ttl)
      (by simp [LruCache.new])
    rw [h2] at h1
    exact h1
  · intro C ttl vals ks hnd hlen
    obtain ⟨hmax, hkeys⟩ := runSets_keys C ttl vals ks hnd
    rcases ks with _ | ⟨k0, rest⟩
    · simp at hlen
    have hrest : rest.length = C := by simpa using hlen
    have hrevlen : rest.reverse.length = C := by simpa using hrest
    have hrev : (k0 :: rest).reverse = rest.reverse ++ [k0] := by simp
    have hkeys2 : (runSets C ttl vals (k0 :: rest)).entries.map Prod.fst =
        rest.reverse := by
      rw [hkeys, hrev, ← hrevlen, List.take_left]
    refine ⟨?_, ?_, ?_⟩
    · simpa using hkeys2
    · have h5 := congrArg List.length hkeys2
      simp only [List.length_map, List.length_reverse] at h5
      omega
    · intro x hx
      simp only [List.head?] at hx
      injection hx with hx0
      subst hx0
      rw [hkeys2, List.mem_reverse]
      exact (List.nodup_cons.mp hnd).1

/-- Concrete instance of the capacity/LRU theorem: inserting the three
distinct keys 0, 1, 2 into a fresh capacity-2 cache leaves keys
`[2, 1]` (two entries) and evicts the first-inserted key 0. -/
theorem cache_capacity_and_lru_eviction_witness :
    (runSets 2 none (fun k => k) [0, 1, 2] :
        LruCache Nat Nat).entries.map Prod.fst = [2, 1] ∧
    (runSets 2 none (fun k => k) [0, 1, 2] :
        LruCache Nat Nat).entries.length = 2 ∧
    (0 : Nat) ∉ (runSets 2 none (fun k => k) [0, 1, 2] :
        LruCache Nat Nat).entries.map Prod.fst := by
  obtain ⟨h1, h2, h3⟩ := (cache_capacity_and_lru_eviction Nat Nat).2 2 none
    (fun k => k) [0, 1, 2] (by decide) (by decide)
  exact ⟨h1, h2, h3 0 rfl⟩

theorem lookupKey_set_self {κ α : Type} [DecidableEq κ] (c : LruCache κ α)
    (k : κ) (v : α) (now : Nat) (hcap : 1 ≤ c.maxsize) :
    lookupKey (c.set k v now).entries k =
      some ⟨v, now, c.ttl.map (fun T => now + T)⟩ := by
  simp only [LruCache.set]
  split
  next hlt =>
    rcases hrest : removeKey k c.entries with _ | ⟨p, t⟩
    · rw [hrest] at hlt
      simp only [List.length_cons, List.length_nil] at hlt
      omega
    · show lookupKey (((k, _) :: p :: t).dropLast) k = _
      rw [show ((k, (⟨v, now, c.ttl.map (fun T => now + T)⟩ :
          CacheEntry α)) :: p :: t).dropLast =
          (k, (⟨v, now, c.ttl.map (fun T => now + T)⟩ : CacheEntry α)) ::
            (p :: t).dropLast from rfl]
      simp [lookupKey]
  next hge =>
    simp [lookupKey]

theorem fresh_not_expired {α : Type} (v : α) (now : Nat)
    (ttl : Option Nat) :
    expiredAt (⟨v, now, ttl.map (fun T => now + T)⟩ : CacheEntry α) now =
      false := by
  cases ttl with
  | none => rfl
  | some T =>
    simp only [Option.map_some', expiredAt]
    exact decide_eq_false (by omega)

/-- C3: cache round-trip and TTL expiry.  On any cache with positive
capacity, `set(k, v)` followed immediately by `get(k)` returns `v` and
counts as a hit; and on a cache with `ttl = T`, a `get(k)` performed at
any time more than `T` after the insertion of `k` returns absence,
counts as a miss, and evicts the stale entry from the container. -/
theorem cache_roundtrip_and_ttl_expiry (κ α : Type) [DecidableEq κ] :
    (∀ (c : LruCache κ α) (k : κ) (v : α) (now : Nat), 1 ≤ c.maxsize →
      ((c.set k v now).get k now).1 = some v ∧
      ((c.set k v now).get k now).2.hits = c.hits + 1) ∧
    (∀ (c : LruCache κ α) (k : κ) (v : α) (tIns now T : Nat),
      1 ≤ c.maxsize → c.ttl = some T → tIns + T < now →
      ((c.set k v tIns).get k now).1 = none ∧
      ((c.set k v tIns).get k now).2.misses = c.misses + 1 ∧
      lookupKey ((c.set k v tIns).get k now).2.entries k = none) := by
  constructor
  · intro c k v now hcap
    have hl := lookupKey_set_self c k v now hcap
    have hne : ¬ expiredAt
        (⟨v, now, c.ttl.map (fun T => now + T)⟩ : CacheEntry α) now =
          true := by
      rw [fresh_not_expired]
      simp
    rw [get_hit hl hne]
    exact ⟨rfl, rfl⟩
  · intro c k v tIns now T hcap httl hlt
    have hl := lookupKey_set_self c k v tIns hcap
    rw [httl, Option.map_some'] at hl
    have he : expiredAt
        (⟨v, tIns, some (tIns + T)⟩ : CacheEntry α) now = true := by
      simp only [expiredAt]
      exact decide_eq_true hlt
    rw [get_miss_expired hl he]
    exact ⟨rfl, rfl, lookupKey_removeKey k _⟩

/-- Concrete instance of the round-trip/TTL theorem on a fresh
capacity-2, ttl-5 cache: an immediate read back of key 0 yields the
stored value 7 as a hit, and a read at time 6 of an entry inserted at
time 0 yields absence, a miss, and an evicted entry. -/
theorem cache_roundtrip_and_ttl_expiry_witness :
    ((((LruCache.new Nat Nat 2 (some 5)).set 0 7 0).get 0 0).1 = some 7 ∧
      (((LruCache.new Nat Nat 2 (some 5)).set 0 7 0).get 0 0).2.hits =
        (LruCache.new Nat Nat 2 (some 5)).hits + 1) ∧
    ((((LruCache.new Nat Nat 2 (some 5)).set 0 7 0).get 0 6).1 = none ∧
      (((LruCache.new Nat Nat 2 (some 5)).set 0 7 0).get 0 6).2.misses =
        (LruCache.new Nat Nat 2 (some 5)).misses + 1 ∧
      lookupKey
        ((((LruCache.new Nat Nat 2 (some 5)).set 0 7 0).get 0 6).2.entries)
        0 = none) :=
  ⟨(cache_roundtrip_and_ttl_expiry Nat Nat).1
      (LruCache.new Nat Nat 2 (some 5)) 0 7 0 (by decide),
    (cache_roundtrip_and_ttl_expiry Nat Nat).2
      (LruCache.new Nat Nat 2 (some 5)) 0 7 0 6 5 (by decide) rfl
      (by decide)⟩

end Flamehaven
